import Mathlib

/-!
# Verification of the filename-keyword classifier

A shallow embedding of the classifier in `src/server/modelService.ts`
(class `ServerModelService`): normalization of an uploaded file's name,
keyword scoring, tie-break selection, score-to-confidence mapping and
metadata lookup, together with theorems settling the frozen claims about
the natural-language specification.

Modelling conventions:

* JS strings are modelled as `List Char`; the entry points take a Lean
  `String` and work on its character list.  `String.prototype.toLowerCase`
  is modelled by `Char.toLower` (its action on the ASCII range, the only
  range the later `[^a-z0-9\s]` filter can keep).
* JS numbers are modelled as exact rationals `ℚ`.  Every number reaching a
  comparison or `Math.round` here is `0.55 + min(s/3,1)*0.43` for a score
  `s = a*1.0 + b*0.4` with small naturals `a`, `b`; for those values the
  double-precision evaluation and the exact-rational evaluation agree on
  every comparison and on the rounded confidence (the real value of
  `confidence*100` is never within `0.03` of a half-integer, far beyond
  the accumulated double rounding error), so the rational model is
  extensionally faithful.  `Math.round x` is `⌊x + 1/2⌋`, which is
  Mathlib's `round`.
* The category set is the closed five-element enumeration the source
  iterates over, so the source's defensive `?? diseaseInfo['Healthy']`
  and `?? 0` fallbacks (unreachable for a category from the closed set)
  disappear in the embedding.
* `async` on `predictFromImageName` only wraps a pure computation, so the
  embedding is the pure function.
-/

namespace AloeModel

/-- The whitespace characters matched by the JS regex class `\s` and
removed by `String.prototype.trim` (ECMAScript WhiteSpace ∪
LineTerminator). -/
def wsChars : List Char :=
  [' ', '\t', '\n', '\x0b', '\x0c', '\r',
   '\u00A0', '\u1680', '\u2000', '\u2001', '\u2002', '\u2003', '\u2004',
   '\u2005', '\u2006', '\u2007', '\u2008', '\u2009', '\u200A',
   '\u2028', '\u2029', '\u202F', '\u205F', '\u3000', '\uFEFF']

/-- `c` matches the JS regex class `\s`. -/
def jsWs (c : Char) : Bool := wsChars.contains c

/-- `c` matches `[a-z0-9]`. -/
def isLowerAlnum (c : Char) : Bool :=
  ('a' ≤ c && c ≤ 'z') || ('0' ≤ c && c ≤ '9')

/-- `c` matches `[_\-\.]`, the separators `normalizeName` collapses to a
single space. -/
def isSepChar (c : Char) : Bool := c == '_' || c == '-' || c == '.'

/-- `c` matches `[a-z0-9\s]`, the characters kept by
`replace(/[^a-z0-9\s]+/g, '')`. -/
def keepChar (c : Char) : Bool := isLowerAlnum c || jsWs c

/-- `String.prototype.toLowerCase`, on the ASCII range. -/
def lowerChar (c : Char) : Char := c.toLower

/-- `String.prototype.trim`: drop leading and trailing whitespace. -/
def trimChars (l : List Char) : List Char :=
  ((l.dropWhile jsWs).reverse.dropWhile jsWs).reverse

/-- Node `path.basename` (posix, no extension argument): drop trailing
separators, then keep the substring after the last remaining `/`. -/
def basenameChars (l : List Char) : List Char :=
  ((l.reverse.dropWhile (· == '/')).takeWhile (· != '/')).reverse

/-- `replace(/[_\-\.]+/g, ' ')`: each maximal run of `_`, `-`, `.`
becomes a single space (the run's space is emitted at its last
character). -/
def replaceSepRuns : List Char → List Char
  | [] => []
  | [c] => if isSepChar c then [' '] else [c]
  | c :: d :: rest =>
    if isSepChar c then
      if isSepChar d then replaceSepRuns (d :: rest)
      else ' ' :: replaceSepRuns (d :: rest)
    else c :: replaceSepRuns (d :: rest)

/-- One step of splitting on whitespace, used right-to-left by `pieces`:
a whitespace character opens a new (empty) piece, any other character is
prepended to the current first piece. -/
def splitWsAux (c : Char) (acc : List (List Char)) : List (List Char) :=
  if jsWs c then [] :: acc
  else
    match acc with
    | [] => [[c]]
    | w :: rest => (c :: w) :: rest

/-- The pieces of `split(/\s+/)` before the `filter(Boolean)`: maximal
whitespace-free substrings, with empty pieces at whitespace boundaries. -/
def pieces (l : List Char) : List (List Char) :=
  l.foldr splitWsAux []

/-- `normalized.split(/\s+/).filter(Boolean)`. -/
def tokensOf (l : List Char) : List (List Char) :=
  (pieces l).filter (fun t => !t.isEmpty)

/-- The value of a hexadecimal digit, or `none` (for the `%XX` escapes of
`decodeURIComponent`). -/
def hexDigit (c : Char) : Option Nat :=
  let n := c.toNat
  if 48 ≤ n ∧ n ≤ 57 then some (n - 48)
  else if 97 ≤ n ∧ n ≤ 102 then some (n - 87)
  else if 65 ≤ n ∧ n ≤ 70 then some (n - 55)
  else none

/-- An item of a percent-encoded string: a literal character, or the byte
of one `%XX` escape. -/
inductive PctItem
  | chr (c : Char)
  | byte (b : Nat)
deriving DecidableEq, Repr

/-- First phase of `decodeURIComponent`: each `%XX` becomes a byte (a
malformed escape throws, i.e. `none`), every other character stays. -/
def pctLex : List Char → Option (List PctItem)
  | [] => some []
  | c :: rest =>
    if c = '%' then
      match rest with
      | h1 :: h2 :: rest2 =>
        match hexDigit h1, hexDigit h2 with
        | some a, some b => (fun items => PctItem.byte (16 * a + b) :: items) <$> pctLex rest2
        | _, _ => none
      | _ => none
    else (fun items => PctItem.chr c :: items) <$> pctLex rest

/-- `b` is a UTF-8 continuation byte `10xxxxxx`. -/
def isContByte (b : Nat) : Bool := 0x80 ≤ b && b < 0xC0

/-- Second phase of `decodeURIComponent`: escape bytes are decoded as
strict UTF-8 (continuation bytes must themselves come from escapes;
overlong forms, surrogates and out-of-range code points throw). -/
def pctDecodeItems : List PctItem → Option (List Char)
  | [] => some []
  | PctItem.chr c :: rest => (fun l => c :: l) <$> pctDecodeItems rest
  | PctItem.byte b :: rest =>
    if b < 0x80 then (fun l => Char.ofNat b :: l) <$> pctDecodeItems rest
    else if b < 0xC0 then none
    else if b < 0xE0 then
      match rest with
      | PctItem.byte b2 :: rest2 =>
        if isContByte b2 then
          let cp := (b - 0xC0) * 0x40 + (b2 - 0x80)
          if 0x80 ≤ cp then (fun l => Char.ofNat cp :: l) <$> pctDecodeItems rest2
          else none
        else none
      | _ => none
    else if b < 0xF0 then
      match rest with
      | PctItem.byte b2 :: PctItem.byte b3 :: rest2 =>
        if isContByte b2 && isContByte b3 then
          let cp := (b - 0xE0) * 0x1000 + (b2 - 0x80) * 0x40 + (b3 - 0x80)
          if 0x800 ≤ cp && !(0xD800 ≤ cp && cp ≤ 0xDFFF) then
            (fun l => Char.ofNat cp :: l) <$> pctDecodeItems rest2
          else none
        else none
      | _ => none
    else if b < 0xF8 then
      match rest with
      | PctItem.byte b2 :: PctItem.byte b3 :: PctItem.byte b4 :: rest2 =>
        if isContByte b2 && isContByte b3 && isContByte b4 then
          let cp := (b - 0xF0) * 0x40000 + (b2 - 0x80) * 0x1000 +
            (b3 - 0x80) * 0x40 + (b4 - 0x80)
          if 0x10000 ≤ cp && cp ≤ 0x10FFFF then
            (fun l => Char.ofNat cp :: l) <$> pctDecodeItems rest2
          else none
        else none
      | _ => none
    else none

/-- `decodeURIComponent`; `none` models the thrown `URIError` (which
`normalizeName` catches, keeping the pre-decode text). -/
def decodeURIComponentOpt (l : List Char) : Option (List Char) :=
  (pctLex l).bind pctDecodeItems

/-- The derived normal form of a filename (`normalizeName`'s result). -/
structure NormName where
  base : List Char
  normalized : List Char
  compact : List Char
  tokens : List (List Char)
deriving DecidableEq, Repr

/-- `ServerModelService.normalizeName`.  `!raw` is true exactly for the
empty string; `raw.split('?')[0]` is the prefix before the first `?`,
then `.split('#')[0]` the prefix before the first `#`; `path.basename`
never throws on a string, so the `catch` branch is dead. -/
def normalizeName (raw : String) : NormName :=
  if raw = "" then ⟨[], [], [], []⟩
  else
    let stripped := (raw.toList.takeWhile (· != '?')).takeWhile (· != '#')
    let base0 := basenameChars stripped
    let base :=
      match decodeURIComponentOpt base0 with
      | some d => d
      | none => base0
    let normalized := trimChars ((replaceSepRuns (base.map lowerChar)).filter keepChar)
    let compact := normalized.filter (fun c => !jsWs c)
    let tokens := tokensOf normalized
    ⟨base, normalized, compact, tokens⟩

/-- The closed set of disease categories (`diseaseClasses`). -/
inductive Category
  | aloeRust
  | healthy
  | anthracnose
  | leafSpot
  | sunburn
deriving DecidableEq, Repr

/-- The display name of each category. -/
def Category.name : Category → String
  | Category.aloeRust => "Aloe Rust"
  | Category.healthy => "Healthy"
  | Category.anthracnose => "Anthracnose"
  | Category.leafSpot => "Leaf Spot"
  | Category.sunburn => "Sunburn"

/-- `diseaseClasses`, in the source's order (also the insertion order of
the `candidates` record that `Object.entries` later iterates). -/
def diseaseClasses : List Category :=
  [Category.aloeRust, Category.healthy, Category.anthracnose,
   Category.leafSpot, Category.sunburn]

/-- The severity levels. -/
inductive Severity
  | low
  | moderate
  | high
deriving DecidableEq, Repr

/-- One entry of the `diseaseInfo` table. -/
structure DiseaseData where
  description : String
  treatment : String
  severity : Option Severity

/-- The `diseaseInfo` configuration table. -/
def diseaseInfo : Category → DiseaseData
  | Category.healthy =>
    ⟨"Your Aloe Vera plant appears healthy with no visible signs of disease.",
     "Continue your current care routine. Maintain proper watering and lighting.",
     none⟩
  | Category.leafSpot =>
    ⟨"Fungal infection causing circular brown or black spots on leaves.",
     "Remove affected leaves, improve air circulation, apply fungicide, reduce watering frequency.",
     some Severity.moderate⟩
  | Category.aloeRust =>
    ⟨"Fungal disease causing orange-brown pustules on leaf surfaces.",
     "Remove infected parts, ensure good ventilation, apply copper-based fungicide.",
     some Severity.high⟩
  | Category.anthracnose =>
    ⟨"Fungal disease causing dark, sunken lesions on leaves and stems.",
     "Prune affected areas, improve drainage, apply systemic fungicide treatment.",
     some Severity.high⟩
  | Category.sunburn =>
    ⟨"Damage from excessive direct sunlight causing brown or white patches.",
     "Move to partial shade, gradually reintroduce to sunlight, remove damaged parts.",
     some Severity.low⟩

/-- Per-category strong and weak keyword lists. -/
structure KeywordSet where
  strong : List String
  weak : List String

/-- The `keywords` configuration table. -/
def keywords : Category → KeywordSet
  | Category.aloeRust =>
    ⟨["rust", "aloerust", "pustule", "pustules", "uredinia", "rusty"],
     ["orange", "brownpustule", "orange-pustule"]⟩
  | Category.anthracnose =>
    ⟨["anthracnose", "colletotrichum", "sunken-lesion", "sunkenlesion", "sunken", "lesion"],
     ["darklesion", "blacklesion", "blackspot"]⟩
  | Category.leafSpot =>
    ⟨["leafspot", "leaf-spot", "leaf_spot", "leaf spot", "spot", "spots"],
     ["speckle", "speckles", "freckle", "freckles"]⟩
  | Category.sunburn =>
    ⟨["sunburn", "sunscald", "sun-scald", "scorch", "scorched", "sun scald"],
     ["heatdamage", "heat-damage", "scald"]⟩
  | Category.healthy =>
    ⟨["healthy", "normal", "control"],
     ["green", "ok", "good"]⟩

/-- Every configured keyword string (strong lists then weak lists, in
category order). -/
def allKeywordStrings : List String :=
  (diseaseClasses.map (fun d => (keywords d).strong ++ (keywords d).weak)).flatten

/-- The tie-break `priority` list. -/
def priority : List Category :=
  [Category.aloeRust, Category.anthracnose, Category.leafSpot,
   Category.sunburn, Category.healthy]

/-- `kw.toLowerCase().replace(/[^a-z0-9]+/g, '')` — the compact form of a
keyword (`kwNorm` in the source's `check`). -/
def kwCompact (kw : String) : List Char :=
  (kw.toList.map lowerChar).filter isLowerAlnum

/-- `kw.toLowerCase().replace(/[^a-z0-9\s]+/g, '').trim()` — the form the
source's `check` looks up in the token list. -/
def kwTokenForm (kw : String) : List Char :=
  trimChars ((kw.toList.map lowerChar).filter keepChar)

/-- The `check` closure of `debugAnalyze`: a keyword with empty compact
form never matches; otherwise it matches on an exact token hit or on
substring containment in the compact filename. -/
def check (nn : NormName) (kw : String) : Bool :=
  if kwCompact kw = [] then false
  else decide (kwTokenForm kw ∈ nn.tokens) || decide (kwCompact kw <:+: nn.compact)

/-- `STRONG_WEIGHT`. -/
def STRONG_WEIGHT : ℚ := 1.0

/-- `WEAK_WEIGHT`. -/
def WEAK_WEIGHT : ℚ := 0.4

/-- One category's match record (`DebugMatch`). -/
structure DebugMatch where
  strongMatches : List String
  weakMatches : List String
  score : ℚ
deriving Repr

/-- The loop body of `debugAnalyze` for one category: matched strong and
weak keywords in configuration order, and the weighted score. -/
def matchRecord (nn : NormName) (ks : KeywordSet) : DebugMatch :=
  let sm := ks.strong.filter (check nn)
  let wm := ks.weak.filter (check nn)
  ⟨sm, wm, (sm.length : ℚ) * STRONG_WEIGHT + (wm.length : ℚ) * WEAK_WEIGHT⟩

/-- The `diseaseCandidates` filter: non-Healthy categories with at least
one strong match, in `diseaseClasses` (= insertion) order. -/
def eligibleList (cand : Category → DebugMatch) : List Category :=
  diseaseClasses.filter (fun d => d != Category.healthy && !(cand d).strongMatches.isEmpty)

/-- The score the source reads off `diseaseCandidates[0]` after sorting
descending: the maximum candidate score. -/
def topScoreOf (cand : Category → DebugMatch) (e : Category) (es : List Category) : ℚ :=
  es.foldl (fun m d => max m (cand d).score) (cand e).score

/-- The selection logic of `debugAnalyze`: Healthy when no disease
candidate is eligible; otherwise the first category of `priority` among
the eligible candidates of maximal score (the trailing
`if (!chosen) chosen = 'Healthy'` is the `getD`). -/
def selectChosen (cand : Category → DebugMatch) : Category :=
  match eligibleList cand with
  | [] => Category.healthy
  | e :: es =>
    let top := topScoreOf cand e es
    let topDiseases := (e :: es).filter (fun d => decide ((cand d).score = top))
    (priority.find? (fun d => decide (d ∈ topDiseases))).getD Category.healthy

/-- The result record of `debugAnalyze`. -/
structure DebugResult where
  filename : List Char
  candidates : Category → DebugMatch
  chosen : Category
  topScore : ℚ

/-- `ServerModelService.debugAnalyze`. -/
def debugAnalyze (raw : String) : DebugResult :=
  let nn := normalizeName raw
  let cand := fun d => matchRecord nn (keywords d)
  let chosen := selectChosen cand
  ⟨nn.base, cand, chosen, (cand chosen).score⟩

/-- `ServerModelService.scoreToConfidence`. -/
def scoreToConfidence (score : ℚ) : ℚ :=
  let confidence := 0.55 + min (score / 3.0) 1 * (0.98 - 0.55)
  (round (confidence * 100) : ℚ) / 100

/-- The `ModelPrediction` record (diagnosis as a member of the closed
category set). -/
structure ModelPrediction where
  diagnosis : Category
  confidence : ℚ
  severity : Option Severity
  isHealthy : Bool
  description : String
  treatment : String

/-- `ServerModelService.predictFromImageName` (pure content of the
`async` method). -/
def predictFromImageName (raw : String) : ModelPrediction :=
  let debug := debugAnalyze raw
  let chosen := debug.chosen
  let diseaseData := diseaseInfo chosen
  let chosenScore := (debug.candidates chosen).score
  let confidence := scoreToConfidence chosenScore
  ⟨chosen, confidence, diseaseData.severity, decide (chosen = Category.healthy),
   diseaseData.description, diseaseData.treatment⟩

/-- Modelled from the spec's words (§4.2, claim C4), for comparison with
the source's `check`: the token-branch form is the keyword "lower-cased
with punctuation reduced to the same cleaning rule used for
`normalized`", i.e. including the `[_\-\.]+ → ' '` replacement that the
source's `check` does not perform. -/
def specTokenForm (kw : String) : List Char :=
  trimChars ((replaceSepRuns (kw.toList.map lowerChar)).filter keepChar)

/-- Modelled from the spec's words (§4.2, claim C4): matched iff the
token list contains the spec's cleaned form, or the compact string
contains the keyword's compact form as a substring. -/
def specMatched (nn : NormName) (kw : String) : Bool :=
  decide (specTokenForm kw ∈ nn.tokens) || decide (kwCompact kw <:+: nn.compact)

/-- Position of a category in a list (first hit; length if absent). -/
def listIdx (a : Category) : List Category → Nat
  | [] => 0
  | b :: t => if a = b then 0 else listIdx a t + 1

/-- Position in the tie-break `priority` list. -/
def priorityIdx (d : Category) : Nat := listIdx d priority

/-! ## Character-class facts -/

/-- A JS whitespace character is not alphanumeric, not a separator, fixed
by lower-casing, kept by `keepChar`, and none of the structural
characters of `normalizeName`. -/
theorem ws_char_facts (c : Char) (h : jsWs c = true) :
    isLowerAlnum c = false ∧ isSepChar c = false ∧ lowerChar c = c ∧
    keepChar c = true ∧ c ≠ '?' ∧ c ≠ '#' ∧ c ≠ '/' ∧ c ≠ '%' := by
  have hm : c ∈ wsChars := by
    simpa [jsWs] using h
  fin_cases hm <;> exact ⟨rfl, rfl, rfl, rfl, by decide, by decide, by decide, by decide⟩

theorem not_ws_of_alnum (c : Char) (h : isLowerAlnum c = true) : jsWs c = false := by
  cases hw : jsWs c with
  | false => rfl
  | true => exact absurd h (by simp [(ws_char_facts c hw).1])

theorem not_ws_of_sep (c : Char) (h : isSepChar c = true) : jsWs c = false := by
  cases hw : jsWs c with
  | false => rfl
  | true => exact absurd h (by simp [(ws_char_facts c hw).2.1])

/-! ## Filtering through the normalization steps -/

theorem filter_dropWhile (p q : Char → Bool) (hpq : ∀ c, q c = true → p c = false) :
    ∀ l : List Char, (l.dropWhile q).filter p = l.filter p := by
  intro l
  induction l with
  | nil => rfl
  | cons c cs ih =>
    cases hq : q c with
    | true => simp [List.dropWhile_cons, List.filter_cons, hq, hpq c hq, ih]
    | false => simp [List.dropWhile_cons, hq]

theorem filter_trimChars (p : Char → Bool) (hpw : ∀ c, jsWs c = true → p c = false)
    (l : List Char) : (trimChars l).filter p = l.filter p := by
  unfold trimChars
  rw [List.filter_reverse, filter_dropWhile p jsWs hpw, List.filter_reverse,
    List.reverse_reverse, filter_dropWhile p jsWs hpw]

theorem mem_of_mem_trimChars {c : Char} {l : List Char} (h : c ∈ trimChars l) : c ∈ l := by
  unfold trimChars at h
  rw [List.mem_reverse] at h
  have h1 := (List.dropWhile_sublist jsWs).subset h
  rw [List.mem_reverse] at h1
  exact (List.dropWhile_sublist jsWs).subset h1

theorem filter_replaceSepRuns (p : Char → Bool) (hsep : ∀ c, isSepChar c = true → p c = false)
    (hsp : p ' ' = false) : ∀ l : List Char, (replaceSepRuns l).filter p = l.filter p := by
  intro l
  induction l with
  | nil => rfl
  | cons c cs ih =>
    cases cs with
    | nil =>
      cases hc : isSepChar c with
      | true => simp [replaceSepRuns, hc, List.filter_cons, hsp, hsep c hc]
      | false => simp [replaceSepRuns, hc]
    | cons d rest =>
      cases hc : isSepChar c with
      | true =>
        cases hd : isSepChar d with
        | true => simp [replaceSepRuns, hc, hd, List.filter_cons, hsep c hc, ih]
        | false => simp [replaceSepRuns, hc, hd, List.filter_cons, hsp, hsep c hc, ih]
      | false => simp [replaceSepRuns, hc, List.filter_cons, ih]

theorem replaceSepRuns_eq_self : ∀ l : List Char, (∀ c ∈ l, isSepChar c = false) →
    replaceSepRuns l = l := by
  intro l
  induction l with
  | nil => exact fun _ => rfl
  | cons c cs ih =>
    intro h
    have hc : isSepChar c = false := h c (List.mem_cons_self c cs)
    cases cs with
    | nil => simp [replaceSepRuns, hc]
    | cons d rest =>
      have : replaceSepRuns (d :: rest) = d :: rest :=
        ih (fun x hx => h x (List.mem_cons_of_mem c hx))
      simp [replaceSepRuns, hc, this]

/-! ## Pieces and tokens -/

theorem flatten_pieces : ∀ l : List Char,
    (pieces l).flatten = l.filter (fun c => !jsWs c) := by
  intro l
  induction l with
  | nil => rfl
  | cons c cs ih =>
    have hstep : pieces (c :: cs) = splitWsAux c (pieces cs) := rfl
    cases hw : jsWs c with
    | true => simp [hstep, splitWsAux, hw, List.filter_cons, ih]
    | false =>
      cases hp : pieces cs with
      | nil =>
        have : List.filter (fun c => !jsWs c) cs = [] := by
          rw [← ih, hp]; rfl
        simp [hstep, splitWsAux, hw, hp, List.filter_cons, this]
      | cons w rest =>
        have : (w :: rest).flatten = List.filter (fun c => !jsWs c) cs := by
          rw [← ih, hp]
        simp [hstep, splitWsAux, hw, hp, List.filter_cons, ← this]

theorem no_ws_of_mem_pieces : ∀ (l : List Char) (t : List Char), t ∈ pieces l →
    ∀ c ∈ t, jsWs c = false := by
  intro l
  induction l with
  | nil => intro t ht; exact absurd ht (by simp [pieces])
  | cons c cs ih =>
    intro t ht x hx
    have hstep : pieces (c :: cs) = splitWsAux c (pieces cs) := rfl
    rw [hstep] at ht
    unfold splitWsAux at ht
    cases hw : jsWs c with
    | true =>
      rw [if_pos hw] at ht
      rcases List.mem_cons.mp ht with h1 | h1
      · subst h1; exact absurd hx (by simp)
      · exact ih t h1 x hx
    | false =>
      rw [if_neg (by simp [hw])] at ht
      cases hp : pieces cs with
      | nil =>
        rw [hp] at ht
        simp at ht
        subst ht
        rcases List.mem_singleton.mp hx with rfl
        exact hw
      | cons w rest =>
        rw [hp] at ht
        rcases List.mem_cons.mp ht with h1 | h1
        · subst h1
          rcases List.mem_cons.mp hx with rfl | h2
          · exact hw
          · exact ih w (by rw [hp]; exact List.mem_cons_self w rest) x h2
        · exact ih t (by rw [hp]; exact List.mem_cons_of_mem w h1) x hx

theorem mem_pieces_of_mem_tokensOf {l t : List Char} (h : t ∈ tokensOf l) : t ∈ pieces l :=
  List.mem_of_mem_filter h

theorem no_ws_of_mem_tokensOf {l t : List Char} (h : t ∈ tokensOf l) :
    ∀ c ∈ t, jsWs c = false :=
  no_ws_of_mem_pieces l t (mem_pieces_of_mem_tokensOf h)

theorem token_sub_of_compact_filter {l t : List Char} (h : t ∈ tokensOf l) :
    t <:+: l.filter (fun c => !jsWs c) := by
  rw [← flatten_pieces]
  exact List.infix_of_mem_flatten (mem_pieces_of_mem_tokensOf h)

/-! ## Keyword cleaning forms -/

theorem sep_not_alnum (c : Char) (h : isSepChar c = true) : isLowerAlnum c = false := by
  unfold isSepChar at h
  rcases Bool.or_eq_true .. |>.mp h with h1 | h1
  · rcases Bool.or_eq_true .. |>.mp h1 with h2 | h2
    · rw [beq_iff_eq] at h2; subst h2; rfl
    · rw [beq_iff_eq] at h2; subst h2; rfl
  · rw [beq_iff_eq] at h1; subst h1; rfl

theorem filter_alnum_keep (l : List Char) :
    (l.filter keepChar).filter isLowerAlnum = l.filter isLowerAlnum := by
  rw [List.filter_filter]
  exact List.filter_congr (fun c _ => by cases h : isLowerAlnum c <;> simp [keepChar, h])

theorem filter_alnum_kwTokenForm (kw : String) :
    (kwTokenForm kw).filter isLowerAlnum = kwCompact kw := by
  unfold kwTokenForm kwCompact
  rw [filter_trimChars isLowerAlnum (fun c h => (ws_char_facts c h).1), filter_alnum_keep]

theorem filter_alnum_specTokenForm (kw : String) :
    (specTokenForm kw).filter isLowerAlnum = kwCompact kw := by
  unfold specTokenForm kwCompact
  rw [filter_trimChars isLowerAlnum (fun c h => (ws_char_facts c h).1), filter_alnum_keep,
    filter_replaceSepRuns isLowerAlnum sep_not_alnum rfl]

theorem kwTokenForm_eq_kwCompact_of_no_ws (kw : String)
    (h : ∀ c ∈ kwTokenForm kw, jsWs c = false) : kwTokenForm kw = kwCompact kw := by
  have hk : ∀ c ∈ kwTokenForm kw, keepChar c = true :=
    fun c hc => List.of_mem_filter (mem_of_mem_trimChars hc)
  have ha : ∀ c ∈ kwTokenForm kw, isLowerAlnum c = true := fun c hc => by
    have h1 := hk c hc
    have h2 := h c hc
    simpa [keepChar, h2] using h1
  exact (List.filter_eq_self.mpr ha).symm.trans (filter_alnum_kwTokenForm kw)

theorem specTokenForm_eq_kwCompact_of_no_ws (kw : String)
    (h : ∀ c ∈ specTokenForm kw, jsWs c = false) : specTokenForm kw = kwCompact kw := by
  have hk : ∀ c ∈ specTokenForm kw, keepChar c = true :=
    fun c hc => List.of_mem_filter (mem_of_mem_trimChars hc)
  have ha : ∀ c ∈ specTokenForm kw, isLowerAlnum c = true := fun c hc => by
    have h1 := hk c hc
    have h2 := h c hc
    simpa [keepChar, h2] using h1
  exact (List.filter_eq_self.mpr ha).symm.trans (filter_alnum_specTokenForm kw)

/-! ## Shape of `normalizeName`'s result -/

theorem normalizeName_compact (raw : String) :
    (normalizeName raw).compact = (normalizeName raw).normalized.filter (fun c => !jsWs c) := by
  by_cases h : raw = "" <;> simp [normalizeName, h]

theorem normalizeName_tokens (raw : String) :
    (normalizeName raw).tokens = tokensOf (normalizeName raw).normalized := by
  by_cases h : raw = "" <;> simp [normalizeName, h, tokensOf, pieces]

/-- A hit in the token list is whitespace-free and an infix of the
compact string. -/
theorem token_hit_facts (raw : String) (t : List Char)
    (hmem : t ∈ (normalizeName raw).tokens) :
    (∀ c ∈ t, jsWs c = false) ∧ t <:+: (normalizeName raw).compact := by
  rw [normalizeName_tokens] at hmem
  refine ⟨no_ws_of_mem_tokensOf hmem, ?_⟩
  rw [normalizeName_compact]
  exact token_sub_of_compact_filter hmem

/-! ## The token branch of `check` is subsumed by the substring branch -/

theorem check_eq_compact_scan (raw kw : String) (h : kwCompact kw ≠ []) :
    check (normalizeName raw) kw =
      decide (kwCompact kw <:+: (normalizeName raw).compact) := by
  unfold check
  rw [if_neg h]
  cases ht : decide (kwTokenForm kw ∈ (normalizeName raw).tokens) with
  | false => simp
  | true =>
    have hmem := of_decide_eq_true ht
    obtain ⟨hws, hinf⟩ := token_hit_facts raw _ hmem
    rw [kwTokenForm_eq_kwCompact_of_no_ws kw hws] at hinf
    simp [decide_eq_true hinf]

theorem specMatched_eq_compact_scan (raw kw : String) :
    specMatched (normalizeName raw) kw =
      decide (kwCompact kw <:+: (normalizeName raw).compact) := by
  unfold specMatched
  cases ht : decide (specTokenForm kw ∈ (normalizeName raw).tokens) with
  | false => simp
  | true =>
    have hmem := of_decide_eq_true ht
    obtain ⟨hws, hinf⟩ := token_hit_facts raw _ hmem
    rw [specTokenForm_eq_kwCompact_of_no_ws kw hws] at hinf
    simp [decide_eq_true hinf]

theorem check_eq_specMatched (raw kw : String) (h : kwCompact kw ≠ []) :
    check (normalizeName raw) kw = specMatched (normalizeName raw) kw := by
  rw [check_eq_compact_scan raw kw h, specMatched_eq_compact_scan raw kw]

/-! ## The classifier's output depends only on the compact string -/

theorem check_congr_compact (raw raw' : String)
    (h : (normalizeName raw).compact = (normalizeName raw').compact) (kw : String) :
    check (normalizeName raw) kw = check (normalizeName raw') kw := by
  by_cases h0 : kwCompact kw = []
  · unfold check
    rw [if_pos h0, if_pos h0]
  · rw [check_eq_compact_scan raw kw h0, check_eq_compact_scan raw' kw h0, h]

theorem debugAnalyze_candidates_congr (raw raw' : String)
    (h : (normalizeName raw).compact = (normalizeName raw').compact) :
    (debugAnalyze raw).candidates = (debugAnalyze raw').candidates := by
  funext d
  show matchRecord (normalizeName raw) (keywords d) = matchRecord (normalizeName raw') (keywords d)
  unfold matchRecord
  rw [List.filter_congr (fun kw _ => check_congr_compact raw raw' h kw),
    List.filter_congr (fun kw _ => check_congr_compact raw raw' h kw)]

/-! ## Selector facts -/

theorem mem_diseaseClasses (d : Category) : d ∈ diseaseClasses := by
  cases d <;> simp [diseaseClasses]

theorem mem_priority (d : Category) : d ∈ priority := by
  cases d <;> simp [priority]

theorem mem_eligibleList (cand : Category → DebugMatch) (d : Category) :
    d ∈ eligibleList cand ↔ (d ≠ Category.healthy ∧ (cand d).strongMatches ≠ []) := by
  unfold eligibleList
  rw [List.mem_filter]
  simp [mem_diseaseClasses, List.isEmpty_iff]

theorem selectChosen_empty (cand : Category → DebugMatch)
    (h : eligibleList cand = []) : selectChosen cand = Category.healthy := by
  unfold selectChosen
  rw [h]

theorem le_foldl_max (l : List ℚ) (init : ℚ) : init ≤ l.foldl max init := by
  induction l generalizing init with
  | nil => exact le_refl init
  | cons x xs ih => exact le_trans (le_max_left init x) (ih (max init x))

theorem mem_le_foldl_max : ∀ (l : List ℚ) (init x : ℚ), x ∈ l → x ≤ l.foldl max init := by
  intro l
  induction l with
  | nil => intro init x hx; cases hx
  | cons y ys ih =>
    intro init x hx
    rcases List.mem_cons.mp hx with rfl | hmem
    · exact le_trans (le_max_right init x) (le_foldl_max ys (max init x))
    · exact ih (max init y) x hmem

theorem foldl_max_mem : ∀ (l : List ℚ) (init : ℚ),
    l.foldl max init = init ∨ l.foldl max init ∈ l := by
  intro l
  induction l with
  | nil => intro init; exact Or.inl rfl
  | cons y ys ih =>
    intro init
    rcases ih (max init y) with h | h
    · rcases le_total init y with hle | hle
      · right
        rw [List.foldl_cons, h, max_eq_right hle]
        exact List.mem_cons_self y ys
      · left
        rw [List.foldl_cons, h, max_eq_left hle]
    · right
      exact List.mem_cons_of_mem y h

theorem find?_earliest (p : Category → Bool) :
    ∀ (l : List Category) (a : Category), l.find? p = some a →
      ∀ b ∈ l, p b = true → listIdx a l ≤ listIdx b l := by
  intro l
  induction l with
  | nil => intro a ha; cases ha
  | cons hd t ih =>
    intro a ha b hb hpb
    cases hph : p hd with
    | true =>
      rw [List.find?_cons_of_pos _ hph] at ha
      have : hd = a := by injection ha
      subst this
      simp [listIdx]
    | false =>
      rw [List.find?_cons_of_neg _ (by simp [hph])] at ha
      have hbh : b ≠ hd := fun e => by
        rw [e, hph] at hpb
        cases hpb
      have hb' : b ∈ t := by
        rcases List.mem_cons.mp hb with rfl | h1
        · exact absurd rfl hbh
        · exact h1
      by_cases hah : a = hd
      · simp [listIdx, hah]
      · have hle := ih a ha b hb' hpb
        simp only [listIdx, if_neg hah, if_neg hbh]
        omega

/-- What the nonempty branch of the selector guarantees: the chosen
category is an eligible candidate, its score is maximal among eligible
candidates, and among the maximal ones it is the earliest in
`priority`. -/
theorem selectChosen_spec (cand : Category → DebugMatch) (e : Category) (es : List Category)
    (h : eligibleList cand = e :: es) :
    selectChosen cand ∈ eligibleList cand ∧
    (∀ d ∈ eligibleList cand, (cand d).score ≤ (cand (selectChosen cand)).score) ∧
    (∀ d ∈ eligibleList cand, (cand d).score = (cand (selectChosen cand)).score →
      priorityIdx (selectChosen cand) ≤ priorityIdx d) := by
  have hfold : topScoreOf cand e es =
      (es.map (fun d => (cand d).score)).foldl max ((cand e).score) := by
    unfold topScoreOf
    rw [List.foldl_map]
  have hbound : ∀ d ∈ e :: es, (cand d).score ≤ topScoreOf cand e es := by
    intro d hd
    rcases List.mem_cons.mp hd with rfl | hd'
    · rw [hfold]
      exact le_foldl_max _ _
    · rw [hfold]
      exact mem_le_foldl_max _ _ _ (List.mem_map_of_mem _ hd')
  have hattain : ∃ d ∈ e :: es, (cand d).score = topScoreOf cand e es := by
    rcases foldl_max_mem (es.map (fun d => (cand d).score)) ((cand e).score) with h1 | h1
    · exact ⟨e, List.mem_cons_self e es, by rw [hfold, h1]⟩
    · obtain ⟨d, hd, hscore⟩ := List.mem_map.mp h1
      exact ⟨d, List.mem_cons_of_mem e hd, by rw [hfold, hscore]⟩
  have hmemTopD : ∀ d, d ∈ (e :: es).filter
      (fun d => decide ((cand d).score = topScoreOf cand e es)) ↔
      (d ∈ e :: es ∧ (cand d).score = topScoreOf cand e es) := by
    intro d
    rw [List.mem_filter]
    simp
  obtain ⟨d0, hd0mem, hd0score⟩ := hattain
  have hd0 : d0 ∈ (e :: es).filter (fun d => decide ((cand d).score = topScoreOf cand e es)) :=
    (hmemTopD d0).mpr ⟨hd0mem, hd0score⟩
  obtain ⟨ch, hch⟩ : ∃ ch, priority.find? (fun d => decide (d ∈ (e :: es).filter
      (fun d => decide ((cand d).score = topScoreOf cand e es)))) = some ch := by
    cases hf : priority.find? (fun d => decide (d ∈ (e :: es).filter
        (fun d => decide ((cand d).score = topScoreOf cand e es)))) with
    | some ch => exact ⟨ch, rfl⟩
    | none =>
      have := List.find?_eq_none.mp hf d0 (mem_priority d0)
      simp [hd0] at this
  have hsel : selectChosen cand = ch := by
    unfold selectChosen
    rw [h]
    dsimp only
    rw [hch]
    rfl
  have hchTopD : ch ∈ (e :: es).filter
      (fun d => decide ((cand d).score = topScoreOf cand e es)) := by
    have hchP := List.find?_some hch
    simpa using hchP
  have hchMem : ch ∈ e :: es := ((hmemTopD ch).mp hchTopD).1
  have hchScore : (cand ch).score = topScoreOf cand e es := ((hmemTopD ch).mp hchTopD).2
  refine ⟨?_, ?_, ?_⟩
  · rw [hsel, h]
    exact hchMem
  · intro d hd
    rw [hsel, hchScore]
    exact hbound d (h ▸ hd)
  · intro d hd hscore
    have hdTopD : d ∈ (e :: es).filter
        (fun d => decide ((cand d).score = topScoreOf cand e es)) :=
      (hmemTopD d).mpr ⟨h ▸ hd, by rw [hscore, hsel, hchScore]⟩
    rw [hsel]
    exact find?_earliest _ priority ch hch d (mem_priority d) (decide_eq_true hdTopD)

/-! ## Score-to-confidence facts -/

theorem score_nonneg (nn : NormName) (ks : KeywordSet) : 0 ≤ (matchRecord nn ks).score := by
  unfold matchRecord STRONG_WEIGHT WEAK_WEIGHT
  positivity

theorem stc_le_stc (s t : ℚ) (hst : s ≤ t) : scoreToConfidence s ≤ scoreToConfidence t := by
  simp only [scoreToConfidence]
  have h1 : min (s / 3.0) 1 ≤ min (t / 3.0) 1 :=
    min_le_min ((div_le_div_iff_of_pos_right (by norm_num)).mpr hst) (le_refl 1)
  have h3 : round ((0.55 + min (s / 3.0) 1 * (0.98 - 0.55)) * 100) ≤
      round ((0.55 + min (t / 3.0) 1 * (0.98 - 0.55)) * 100) := by
    rw [round_eq, round_eq]
    exact Int.floor_le_floor (by nlinarith)
  have h4 : ((round ((0.55 + min (s / 3.0) 1 * (0.98 - 0.55)) * 100) : ℤ) : ℚ) ≤
      ((round ((0.55 + min (t / 3.0) 1 * (0.98 - 0.55)) * 100) : ℤ) : ℚ) := by
    exact_mod_cast h3
  linarith

theorem stc_bounds (s : ℚ) (hs : 0 ≤ s) :
    0.55 ≤ scoreToConfidence s ∧ scoreToConfidence s ≤ 0.98 ∧
    (scoreToConfidence s * 100).den = 1 := by
  simp only [scoreToConfidence]
  have ht0 : (0:ℚ) ≤ min (s / 3.0) 1 := le_min (by positivity) (by norm_num)
  have ht1 : min (s / 3.0) 1 ≤ 1 := min_le_right _ _
  have hcl : (0.55:ℚ) ≤ 0.55 + min (s / 3.0) 1 * (0.98 - 0.55) := by nlinarith
  have hcu : (0.55:ℚ) + min (s / 3.0) 1 * (0.98 - 0.55) ≤ 0.98 := by nlinarith
  have hrl : (55:ℤ) ≤ round ((0.55 + min (s / 3.0) 1 * (0.98 - 0.55)) * 100) := by
    rw [round_eq]
    apply Int.le_floor.mpr
    push_cast
    linarith
  have hru : round ((0.55 + min (s / 3.0) 1 * (0.98 - 0.55)) * 100) ≤ 98 := by
    rw [round_eq]
    have h2 : (0.55 + min (s / 3.0) 1 * (0.98 - 0.55)) * 100 + 1/2 < ((99:ℤ):ℚ) := by
      push_cast
      linarith
    have := Int.floor_lt.mpr h2
    omega
  have hrlq : (55:ℚ) ≤ (round ((0.55 + min (s / 3.0) 1 * (0.98 - 0.55)) * 100) : ℚ) := by
    exact_mod_cast hrl
  have hruq : (round ((0.55 + min (s / 3.0) 1 * (0.98 - 0.55)) * 100) : ℚ) ≤ 98 := by
    exact_mod_cast hru
  refine ⟨by linarith, by linarith, ?_⟩
  rw [div_mul_cancel₀ _ (by norm_num : (100:ℚ) ≠ 0)]
  exact Rat.den_intCast _

theorem stc_zero : scoreToConfidence 0 = 0.55 := by
  norm_num [scoreToConfidence, round_eq]

theorem stc_one : scoreToConfidence 1 = 0.69 := by
  norm_num [scoreToConfidence, round_eq]

theorem stc_two : scoreToConfidence 2 = 0.84 := by
  norm_num [scoreToConfidence, round_eq]

theorem stc_cap (s : ℚ) (h3 : 3 ≤ s) : scoreToConfidence s = 0.98 := by
  have hmin : min (s / 3.0) 1 = 1 := min_eq_right (by rw [le_div_iff₀ (by norm_num)]; linarith)
  simp only [scoreToConfidence, hmin]
  norm_num [round_eq]

/-! ## Percent-decoding of escape-free strings -/

theorem pctLex_no_pct : ∀ l : List Char, (∀ c ∈ l, c ≠ '%') →
    pctLex l = some (l.map PctItem.chr) := by
  intro l
  induction l with
  | nil => intro _; rfl
  | cons c cs ih =>
    intro h
    have hc : c ≠ '%' := h c (List.mem_cons_self c cs)
    rw [pctLex.eq_def]
    simp only [if_neg hc, ih (fun x hx => h x (List.mem_cons_of_mem c hx))]
    rfl

theorem pctDecodeItems_chrs : ∀ l : List Char, pctDecodeItems (l.map PctItem.chr) = some l := by
  intro l
  induction l with
  | nil => rfl
  | cons c cs ih =>
    rw [List.map_cons]
    show (fun l => c :: l) <$> pctDecodeItems (List.map PctItem.chr cs) = some (c :: cs)
    rw [ih]
    rfl

theorem decode_no_pct (l : List Char) (h : ∀ c ∈ l, c ≠ '%') :
    decodeURIComponentOpt l = some l := by
  unfold decodeURIComponentOpt
  rw [pctLex_no_pct l h]
  simpa using pctDecodeItems_chrs l

/-! ## takeWhile / dropWhile helpers -/

theorem takeWhile_append_all (q : Char → Bool) :
    ∀ (l r : List Char), (∀ c ∈ l, q c = true) → (l ++ r).takeWhile q = l ++ r.takeWhile q := by
  intro l
  induction l with
  | nil => intro r _; rfl
  | cons c cs ih =>
    intro r hl
    have hc : q c = true := hl c (List.mem_cons_self c cs)
    simp [List.takeWhile_cons, hc, ih r (fun d hd => hl d (List.mem_cons_of_mem c hd))]

theorem takeWhile_append_stop (q : Char → Bool) (l : List Char) (x : Char) (r : List Char)
    (hl : ∀ c ∈ l, q c = true) (hx : q x = false) : (l ++ x :: r).takeWhile q = l := by
  rw [takeWhile_append_all q l (x :: r) hl, List.takeWhile_cons, hx]
  simp

theorem dropWhile_eq_self_all (q : Char → Bool) (l : List Char)
    (h : ∀ c ∈ l, q c = false) : l.dropWhile q = l := by
  cases l with
  | nil => rfl
  | cons c cs => simp [List.dropWhile_cons, h c (List.mem_cons_self c cs)]

theorem mem_of_mem_basenameChars {c : Char} {l : List Char} (h : c ∈ basenameChars l) : c ∈ l := by
  unfold basenameChars at h
  rw [List.mem_reverse] at h
  have h1 := (List.takeWhile_sublist _).subset h
  have h2 := (List.dropWhile_sublist _).subset h1
  rw [List.mem_reverse] at h2
  exact h2

/-! ## Evaluation helpers for concrete inputs -/

/-- When exactly one disease candidate is eligible, it is chosen. -/
theorem selectChosen_single (cand : Category → DebugMatch) (e : Category)
    (h : eligibleList cand = [e]) : selectChosen cand = e := by
  unfold selectChosen
  rw [h]
  dsimp only
  show (priority.find? (fun d =>
      decide (d ∈ List.filter (fun d => decide ((cand d).score = (cand e).score)) [e]))).getD
      Category.healthy = e
  have hd : decide ((cand e).score = (cand e).score) = true := decide_eq_true rfl
  rw [List.filter_cons, hd]
  simp only [if_true, List.filter_nil]
  cases e <;> rfl

/-- With an empty token list and empty compact string no keyword ever
matches. -/
theorem check_all_empty (nn : NormName) (hn : nn.tokens = []) (hc : nn.compact = [])
    (kw : String) : check nn kw = false := by
  unfold check
  by_cases hk : kwCompact kw = []
  · rw [if_pos hk]
  · rw [if_neg hk]
    have h1 : decide (kwTokenForm kw ∈ nn.tokens) = false := by
      rw [hn]
      simp
    have h2 : decide (kwCompact kw <:+: nn.compact) = false := by
      rw [hc]
      apply decide_eq_false
      intro hinf
      exact hk (List.infix_nil.mp hinf)
    rw [h1, h2]
    rfl

/-! ## The claims -/

/-- C5: for every input filename, the confidence field of the
`PredictionResult` returned by classify satisfies
`0.55 ≤ confidence ≤ 0.98` and is rounded to two decimal places
(`confidence * 100` is an integer). -/
theorem c5_confidence_range (raw : String) :
    0.55 ≤ (predictFromImageName raw).confidence ∧
    (predictFromImageName raw).confidence ≤ 0.98 ∧
    ((predictFromImageName raw).confidence * 100).den = 1 :=
  stc_bounds ((debugAnalyze raw).candidates (debugAnalyze raw).chosen).score
    (score_nonneg (normalizeName raw) (keywords (debugAnalyze raw).chosen))

/-- C6: the score-to-confidence mapping is monotone non-decreasing over
non-negative scores, a score of `0` yields confidence exactly `0.55`,
and any score `≥ 3.0` yields confidence exactly `0.98`. -/
theorem c6_confidence_monotone_endpoints :
    (∀ s t : ℚ, 0 ≤ s → s ≤ t → scoreToConfidence s ≤ scoreToConfidence t) ∧
    scoreToConfidence 0 = 0.55 ∧
    (∀ s : ℚ, 3 ≤ s → scoreToConfidence s = 0.98) :=
  ⟨fun s t _ hst => stc_le_stc s t hst, stc_zero, fun s h3 => stc_cap s h3⟩

theorem c6_confidence_monotone_endpoints_witness :
    scoreToConfidence 1 ≤ scoreToConfidence 2 ∧
    scoreToConfidence 0 = 0.55 ∧ scoreToConfidence 3 = 0.98 :=
  ⟨c6_confidence_monotone_endpoints.1 1 2 zero_le_one one_le_two,
   c6_confidence_monotone_endpoints.2.1,
   c6_confidence_monotone_endpoints.2.2 3 (le_refl 3)⟩

/-- C9: for every input filename, `isHealthy` holds iff `severity` is
null, `severity` is the chosen category's configured severity, and the
configured severity is null exactly for Healthy. -/
theorem c9_severity_isHealthy (raw : String) :
    ((predictFromImageName raw).isHealthy = true ↔
      (predictFromImageName raw).severity = none) ∧
    (predictFromImageName raw).severity = (diseaseInfo (debugAnalyze raw).chosen).severity ∧
    (∀ c : Category, (diseaseInfo c).severity = none ↔ c = Category.healthy) := by
  refine ⟨?_, rfl, ?_⟩
  · show decide ((debugAnalyze raw).chosen = Category.healthy) = true ↔
      (diseaseInfo (debugAnalyze raw).chosen).severity = none
    generalize (debugAnalyze raw).chosen = c
    cases c <;> simp [diseaseInfo]
  · intro c
    cases c <;> simp [diseaseInfo]

/-- C3: for every input, a non-Healthy category is an eligible candidate
exactly when it has at least one strong-keyword match; with at least one
eligible candidate the chosen category is eligible, of maximal score
among the eligible candidates, and earliest in the fixed priority order
`[Aloe Rust, Anthracnose, Leaf Spot, Sunburn, Healthy]` among the
maximal ones; with none, the chosen category is Healthy. -/
theorem c3_selector_eligibility_priority (raw : String) :
    (∀ d, d ∈ eligibleList (debugAnalyze raw).candidates ↔
      (d ≠ Category.healthy ∧ ((debugAnalyze raw).candidates d).strongMatches ≠ [])) ∧
    (eligibleList (debugAnalyze raw).candidates = [] →
      (debugAnalyze raw).chosen = Category.healthy) ∧
    (eligibleList (debugAnalyze raw).candidates ≠ [] →
      (debugAnalyze raw).chosen ∈ eligibleList (debugAnalyze raw).candidates ∧
      (∀ d ∈ eligibleList (debugAnalyze raw).candidates,
        ((debugAnalyze raw).candidates d).score ≤
          ((debugAnalyze raw).candidates (debugAnalyze raw).chosen).score) ∧
      (∀ d ∈ eligibleList (debugAnalyze raw).candidates,
        ((debugAnalyze raw).candidates d).score =
          ((debugAnalyze raw).candidates (debugAnalyze raw).chosen).score →
        priorityIdx (debugAnalyze raw).chosen ≤ priorityIdx d)) := by
  refine ⟨fun d => mem_eligibleList _ d, ?_, ?_⟩
  · intro h
    show selectChosen ((debugAnalyze raw).candidates) = Category.healthy
    exact selectChosen_empty _ h
  · intro h
    obtain ⟨e, es, he⟩ : ∃ e es, eligibleList (debugAnalyze raw).candidates = e :: es := by
      cases hl : eligibleList (debugAnalyze raw).candidates with
      | nil => exact absurd hl h
      | cons e es => exact ⟨e, es, rfl⟩
    exact selectChosen_spec ((debugAnalyze raw).candidates) e es he

theorem c3_selector_eligibility_priority_witness :
    (debugAnalyze "rust_lesion.jpg").chosen ∈
      eligibleList (debugAnalyze "rust_lesion.jpg").candidates ∧
    priorityIdx (debugAnalyze "rust_lesion.jpg").chosen ≤
      priorityIdx (debugAnalyze "rust_lesion.jpg").chosen := by
  have h := (c3_selector_eligibility_priority "rust_lesion.jpg").2.2 (by decide)
  exact ⟨h.1, h.2.2 _ h.1 rfl⟩

/-- Concrete evaluation of the classifier at `"healthy.jpg"`: no disease
category has a strong match, the diagnosis is Healthy, and the
confidence is `0.69` (computed from Healthy's own score `1.0`), not
`0.55`. -/
theorem healthy_jpg_eval :
    (debugAnalyze "healthy.jpg").chosen = Category.healthy ∧
    ((debugAnalyze "healthy.jpg").candidates Category.healthy).score = 1 ∧
    (predictFromImageName "healthy.jpg").confidence = 0.69 := by
  have helig : eligibleList (debugAnalyze "healthy.jpg").candidates = [] := by decide
  have hchosen : (debugAnalyze "healthy.jpg").chosen = Category.healthy :=
    selectChosen_empty _ helig
  have hsf : (keywords Category.healthy).strong.filter
      (check (normalizeName "healthy.jpg")) = ["healthy"] := by decide
  have hwf : (keywords Category.healthy).weak.filter
      (check (normalizeName "healthy.jpg")) = [] := by decide
  have hscore : ((debugAnalyze "healthy.jpg").candidates Category.healthy).score = 1 := by
    show (matchRecord (normalizeName "healthy.jpg") (keywords Category.healthy)).score = 1
    unfold matchRecord STRONG_WEIGHT WEAK_WEIGHT
    rw [hsf, hwf]
    norm_num
  refine ⟨hchosen, hscore, ?_⟩
  show scoreToConfidence
    ((debugAnalyze "healthy.jpg").candidates (debugAnalyze "healthy.jpg").chosen).score = 0.69
  rw [hchosen, hscore]
  exact stc_one

/-- C1, counterexample: `"healthy.jpg"` has zero strong matches in every
non-Healthy category, yet classify returns confidence `0.69 ≠ 0.55` (the
confidence is computed from Healthy's own accumulated score, not pinned
to `0.55` as the claim states). -/
theorem c1_counterexample_healthy_confidence :
    (∀ d, d ≠ Category.healthy →
      ((debugAnalyze "healthy.jpg").candidates d).strongMatches = []) ∧
    (predictFromImageName "healthy.jpg").diagnosis = Category.healthy ∧
    (predictFromImageName "healthy.jpg").confidence = 0.69 ∧
    (predictFromImageName "healthy.jpg").confidence ≠ 0.55 := by
  obtain ⟨hchosen, -, hconf⟩ := healthy_jpg_eval
  refine ⟨?_, hchosen, hconf, ?_⟩
  · intro d hd
    cases d with
    | aloeRust => decide
    | healthy => exact absurd rfl hd
    | anthracnose => decide
    | leafSpot => decide
    | sunburn => decide
  · rw [hconf]
    norm_num

/-- C1 (amended): for every input in which no non-Healthy category has a
strong-keyword match, the diagnosis is Healthy and the confidence is
`scoreToConfidence` of Healthy's own accumulated score — which equals
`0.55` exactly when Healthy itself has no matches either. -/
theorem c1_healthy_fallback_amended (raw : String)
    (h : ∀ d, d ≠ Category.healthy →
      ((debugAnalyze raw).candidates d).strongMatches = []) :
    (predictFromImageName raw).diagnosis = Category.healthy ∧
    (predictFromImageName raw).confidence =
      scoreToConfidence ((debugAnalyze raw).candidates Category.healthy).score ∧
    (((debugAnalyze raw).candidates Category.healthy).score = 0 →
      (predictFromImageName raw).confidence = 0.55) := by
  have helig : eligibleList (debugAnalyze raw).candidates = [] := by
    unfold eligibleList
    rw [List.filter_eq_nil_iff]
    intro d _
    by_cases hdh : d = Category.healthy
    · subst hdh
      simp
    · simp [hdh, h d hdh]
  have hchosen : (debugAnalyze raw).chosen = Category.healthy := selectChosen_empty _ helig
  refine ⟨hchosen, ?_, ?_⟩
  · show scoreToConfidence
      ((debugAnalyze raw).candidates (debugAnalyze raw).chosen).score = _
    rw [hchosen]
  · intro h0
    show scoreToConfidence
      ((debugAnalyze raw).candidates (debugAnalyze raw).chosen).score = 0.55
    rw [hchosen, h0]
    exact stc_zero

theorem c1_healthy_fallback_amended_witness :
    (predictFromImageName "").diagnosis = Category.healthy ∧
    (predictFromImageName "").confidence =
      scoreToConfidence ((debugAnalyze "").candidates Category.healthy).score ∧
    (((debugAnalyze "").candidates Category.healthy).score = 0 →
      (predictFromImageName "").confidence = 0.55) :=
  c1_healthy_fallback_amended "" (by
    intro d hd
    cases d with
    | aloeRust => decide
    | healthy => exact absurd rfl hd
    | anthracnose => decide
    | leafSpot => decide
    | sunburn => decide)

/-- Concrete evaluation of the classifier at `"leaf_spot_01.png"`: five
strong Leaf Spot keywords match (`leafspot`, `leaf-spot`, `leaf_spot`,
`leaf spot`, `spot`), so the winning score is `5.0` and the confidence
caps at `0.98`. -/
theorem leaf_spot_01_eval :
    (debugAnalyze "leaf_spot_01.png").chosen = Category.leafSpot ∧
    (debugAnalyze "leaf_spot_01.png").topScore = 5 ∧
    (predictFromImageName "leaf_spot_01.png").confidence = 0.98 := by
  have helig : eligibleList (debugAnalyze "leaf_spot_01.png").candidates =
      [Category.leafSpot] := by decide
  have hchosen : (debugAnalyze "leaf_spot_01.png").chosen = Category.leafSpot := by
    show selectChosen ((debugAnalyze "leaf_spot_01.png").candidates) = Category.leafSpot
    exact selectChosen_single _ _ helig
  have hsf : (keywords Category.leafSpot).strong.filter
      (check (normalizeName "leaf_spot_01.png")) =
      ["leafspot", "leaf-spot", "leaf_spot", "leaf spot", "spot"] := by decide
  have hwf : (keywords Category.leafSpot).weak.filter
      (check (normalizeName "leaf_spot_01.png")) = [] := by decide
  have hscore : ((debugAnalyze "leaf_spot_01.png").candidates Category.leafSpot).score = 5 := by
    show (matchRecord (normalizeName "leaf_spot_01.png") (keywords Category.leafSpot)).score = 5
    unfold matchRecord STRONG_WEIGHT WEAK_WEIGHT
    rw [hsf, hwf]
    norm_num
  have htop : (debugAnalyze "leaf_spot_01.png").topScore = 5 := by
    show ((debugAnalyze "leaf_spot_01.png").candidates
      (debugAnalyze "leaf_spot_01.png").chosen).score = 5
    rw [hchosen]
    exact hscore
  refine ⟨hchosen, htop, ?_⟩
  show scoreToConfidence ((debugAnalyze "leaf_spot_01.png").candidates
    (debugAnalyze "leaf_spot_01.png").chosen).score = 0.98
  rw [hchosen, hscore]
  exact stc_cap 5 (by norm_num)

/-- C2, counterexample: on `"leaf_spot_01.png"` the diagnosis is Leaf
Spot as claimed, but the returned confidence is `0.98`, not `0.69` and
not approximately `0.70`: the winning score is `5.0` (five strong
keywords), not `1.0`. -/
theorem c2_counterexample_confidence :
    (predictFromImageName "leaf_spot_01.png").diagnosis = Category.leafSpot ∧
    (predictFromImageName "leaf_spot_01.png").confidence = 0.98 ∧
    (predictFromImageName "leaf_spot_01.png").confidence ≠ 0.69 ∧
    ¬(|(predictFromImageName "leaf_spot_01.png").confidence - 0.70| ≤ 0.05) := by
  obtain ⟨hchosen, -, hconf⟩ := leaf_spot_01_eval
  refine ⟨hchosen, hconf, ?_, ?_⟩
  · rw [hconf]
    norm_num
  · rw [hconf]
    intro habs
    rw [abs_le] at habs
    have := habs.2
    norm_num at this

/-- C2 (amended): for `"leaf_spot_01.png"` the tokens are
`[leaf, spot, 01, png]`, the compact string contains `leafspot`, the
diagnosis is Leaf Spot and the winning score is `5.0` (so `≥ 1.0` holds),
but the returned confidence is `0.98` (the score exceeds the `3.0` cap),
not approximately `0.70`; `scoreToConfidence 1 = 0.69` does hold, the
score is just never `1.0` here. -/
theorem c2_leaf_spot_scenario_amended :
    (normalizeName "leaf_spot_01.png").tokens =
      ["leaf".toList, "spot".toList, "01".toList, "png".toList] ∧
    "leafspot".toList <:+: (normalizeName "leaf_spot_01.png").compact ∧
    (predictFromImageName "leaf_spot_01.png").diagnosis = Category.leafSpot ∧
    (debugAnalyze "leaf_spot_01.png").topScore = 5 ∧
    (1:ℚ) ≤ (debugAnalyze "leaf_spot_01.png").topScore ∧
    (predictFromImageName "leaf_spot_01.png").confidence = 0.98 ∧
    scoreToConfidence 1 = 0.69 := by
  obtain ⟨hchosen, htop, hconf⟩ := leaf_spot_01_eval
  exact ⟨by decide, by decide, hchosen, htop, by rw [htop]; norm_num, hconf, stc_one⟩

/-- C4: for every input filename and every configured keyword with
non-empty compact form, the source's `check` agrees with the spec's
matching rule (exact single-token hit of the cleaned keyword, or
substring containment of the compact keyword in the compact filename);
and both `"img_rust_01.jpg"` (token hit) and `"imgrust01.jpg"`
(substring hit) are diagnosed as Aloe Rust with a strong match
recorded. -/
theorem c4_keyword_match_rule :
    (∀ raw kw : String, kw ∈ allKeywordStrings → kwCompact kw ≠ [] →
      check (normalizeName raw) kw = specMatched (normalizeName raw) kw) ∧
    (predictFromImageName "img_rust_01.jpg").diagnosis = Category.aloeRust ∧
    ((debugAnalyze "img_rust_01.jpg").candidates Category.aloeRust).strongMatches ≠ [] ∧
    "rust".toList ∈ (normalizeName "img_rust_01.jpg").tokens ∧
    (predictFromImageName "imgrust01.jpg").diagnosis = Category.aloeRust ∧
    ((debugAnalyze "imgrust01.jpg").candidates Category.aloeRust).strongMatches ≠ [] ∧
    "rust".toList <:+: (normalizeName "imgrust01.jpg").compact := by
  refine ⟨fun raw kw _ hk => check_eq_specMatched raw kw hk, ?_, by decide, by decide,
    ?_, by decide, by decide⟩
  · have helig : eligibleList (debugAnalyze "img_rust_01.jpg").candidates =
        [Category.aloeRust] := by decide
    show selectChosen ((debugAnalyze "img_rust_01.jpg").candidates) = Category.aloeRust
    exact selectChosen_single _ _ helig
  · have helig : eligibleList (debugAnalyze "imgrust01.jpg").candidates =
        [Category.aloeRust] := by decide
    show selectChosen ((debugAnalyze "imgrust01.jpg").candidates) = Category.aloeRust
    exact selectChosen_single _ _ helig

theorem c4_keyword_match_rule_witness :
    check (normalizeName "img_rust_01.jpg") "rust" =
      specMatched (normalizeName "img_rust_01.jpg") "rust" :=
  c4_keyword_match_rule.1 "img_rust_01.jpg" "rust" (by decide) (by decide)

/-- C10: the single-token branch of the keyword check is redundant — for
every input and every configured keyword, `check` succeeds exactly when
the compact filename contains the keyword's compact form as a substring;
consequently two filenames with the same compact string receive the same
diagnosis, top score and confidence. -/
theorem c10_token_branch_redundant :
    (∀ raw kw : String, kw ∈ allKeywordStrings →
      check (normalizeName raw) kw =
        decide (kwCompact kw <:+: (normalizeName raw).compact)) ∧
    (∀ raw1 raw2 : String,
      (normalizeName raw1).compact = (normalizeName raw2).compact →
      (predictFromImageName raw1).diagnosis = (predictFromImageName raw2).diagnosis ∧
      (debugAnalyze raw1).topScore = (debugAnalyze raw2).topScore ∧
      (predictFromImageName raw1).confidence = (predictFromImageName raw2).confidence) := by
  constructor
  · intro raw kw hkw
    have hnonempty : kwCompact kw ≠ [] := by
      have hall : allKeywordStrings.all (fun k => !(kwCompact k).isEmpty) = true := by decide
      have := List.all_eq_true.mp hall kw hkw
      simpa [List.isEmpty_iff] using this
    exact check_eq_compact_scan raw kw hnonempty
  · intro raw1 raw2 h
    have hcand := debugAnalyze_candidates_congr raw1 raw2 h
    have hchosen : (debugAnalyze raw1).chosen = (debugAnalyze raw2).chosen := by
      show selectChosen ((debugAnalyze raw1).candidates) =
        selectChosen ((debugAnalyze raw2).candidates)
      rw [hcand]
    refine ⟨hchosen, ?_, ?_⟩
    · show ((debugAnalyze raw1).candidates (debugAnalyze raw1).chosen).score =
        ((debugAnalyze raw2).candidates (debugAnalyze raw2).chosen).score
      rw [hcand, hchosen]
    · show scoreToConfidence
        ((debugAnalyze raw1).candidates (debugAnalyze raw1).chosen).score =
        scoreToConfidence
        ((debugAnalyze raw2).candidates (debugAnalyze raw2).chosen).score
      rw [hcand, hchosen]

theorem c10_token_branch_redundant_witness :
    (check (normalizeName "leaf_spot.png") "rust" =
      decide (kwCompact "rust" <:+: (normalizeName "leaf_spot.png").compact)) ∧
    (predictFromImageName "leaf_spot.png").diagnosis =
      (predictFromImageName "leaf-spot.png").diagnosis ∧
    (debugAnalyze "leaf_spot.png").topScore = (debugAnalyze "leaf-spot.png").topScore ∧
    (predictFromImageName "leaf_spot.png").confidence =
      (predictFromImageName "leaf-spot.png").confidence :=
  ⟨c10_token_branch_redundant.1 "leaf_spot.png" "rust" (by decide),
   c10_token_branch_redundant.2 "leaf_spot.png" "leaf-spot.png" (by decide)⟩

/-- The base name computed by `normalizeName`, given what the `?`/`#`
stripping evaluates to and that the result is free of `%` escapes. -/
theorem normalizeName_base_of_strip (raw : String) (p : List Char) (hne : raw ≠ "")
    (hstr : (raw.toList.takeWhile (· != '?')).takeWhile (· != '#') = p)
    (hb : ∀ c ∈ basenameChars p, c ≠ '%') :
    (normalizeName raw).base = basenameChars p := by
  simp only [normalizeName, if_neg hne]
  rw [hstr, decode_no_pct _ hb]

/-- C7: `normalize("a/b/leaf_spot.png?x=1#y").base == "leaf_spot.png"`,
and in general stripping at the first `?` (resp. `#`) happens before the
final path segment is taken, so the base name is the basename of the
part before the query/fragment even when the suffix contains further `/`
characters. -/
theorem c7_path_query_stripping :
    (normalizeName "a/b/leaf_spot.png?x=1#y").base = "leaf_spot.png".toList ∧
    (∀ p s : String, (∀ c ∈ p.toList, c ≠ '?' ∧ c ≠ '#' ∧ c ≠ '%') →
      (normalizeName (p ++ "?" ++ s)).base = basenameChars p.toList ∧
      (normalizeName (p ++ "#" ++ s)).base = basenameChars p.toList) := by
  refine ⟨by decide, ?_⟩
  intro p s h
  have hlist1 : (p ++ "?" ++ s).toList = p.toList ++ '?' :: s.toList := by
    simp [String.toList, String.data_append]
  have hlist2 : (p ++ "#" ++ s).toList = p.toList ++ '#' :: s.toList := by
    simp [String.toList, String.data_append]
  have hb : ∀ c ∈ basenameChars p.toList, c ≠ '%' :=
    fun c hc => (h c (mem_of_mem_basenameChars hc)).2.2
  constructor
  · have hne : (p ++ "?" ++ s) ≠ "" := by
      intro h0
      have h1 := congrArg String.toList h0
      rw [hlist1] at h1
      simp at h1
    apply normalizeName_base_of_strip _ _ hne _ hb
    rw [hlist1,
      takeWhile_append_stop _ _ _ _ (fun c hc => by simp [(h c hc).1]) (by decide)]
    exact List.takeWhile_eq_self_iff.mpr (fun c hc => by simp [(h c hc).2.1])
  · have hne : (p ++ "#" ++ s) ≠ "" := by
      intro h0
      have h1 := congrArg String.toList h0
      rw [hlist2] at h1
      simp at h1
    apply normalizeName_base_of_strip _ _ hne _ hb
    rw [hlist2, takeWhile_append_all (· != '?') p.toList ('#' :: s.toList)
      (fun c hc => by simp [(h c hc).1])]
    have hsharp : List.takeWhile (· != '?') ('#' :: s.toList) =
        '#' :: s.toList.takeWhile (· != '?') := by
      rw [List.takeWhile_cons]
      simp
    rw [hsharp]
    exact takeWhile_append_stop _ _ _ _ (fun c hc => by simp [(h c hc).2.1]) (by decide)

theorem c7_path_query_stripping_witness :
    (normalizeName ("dir/leaf.png" ++ "?" ++ "x=1/y")).base =
      basenameChars "dir/leaf.png".toList ∧
    (normalizeName ("dir/leaf.png" ++ "#" ++ "x=1/y")).base =
      basenameChars "dir/leaf.png".toList :=
  c7_path_query_stripping.2 "dir/leaf.png" "x=1/y" (by decide)

/-- A whitespace-only (or empty) filename normalizes to an empty
`normalized` text. -/
theorem normalized_empty_of_all_ws (raw : String) (h : ∀ c ∈ raw.toList, jsWs c = true) :
    (normalizeName raw).normalized = [] := by
  by_cases h0 : raw = ""
  · rw [h0]
    rfl
  · have hstr : (raw.toList.takeWhile (· != '?')).takeWhile (· != '#') = raw.toList := by
      have hq : raw.toList.takeWhile (· != '?') = raw.toList :=
        List.takeWhile_eq_self_iff.mpr (fun c hc => by
          simp [(ws_char_facts c (h c hc)).2.2.2.2.1])
      have hh : raw.toList.takeWhile (· != '#') = raw.toList :=
        List.takeWhile_eq_self_iff.mpr (fun c hc => by
          simp [(ws_char_facts c (h c hc)).2.2.2.2.2.1])
      rw [hq, hh]
    have hbase0 : basenameChars raw.toList = raw.toList := by
      unfold basenameChars
      rw [dropWhile_eq_self_all _ _ (fun c hc => by
        simp [(ws_char_facts c (h c (List.mem_reverse.mp hc))).2.2.2.2.2.2.1])]
      rw [List.takeWhile_eq_self_iff.mpr (fun c hc => by
        simp [(ws_char_facts c (h c (List.mem_reverse.mp hc))).2.2.2.2.2.2.1])]
      exact List.reverse_reverse _
    have hdec : decodeURIComponentOpt raw.toList = some raw.toList :=
      decode_no_pct _ (fun c hc => (ws_char_facts c (h c hc)).2.2.2.2.2.2.2)
    have hmap : raw.toList.map lowerChar = raw.toList := by
      rw [List.map_congr_left (fun c hc => (ws_char_facts c (h c hc)).2.2.1)]
      exact List.map_id _
    have hrep : replaceSepRuns raw.toList = raw.toList :=
      replaceSepRuns_eq_self _ (fun c hc => (ws_char_facts c (h c hc)).2.1)
    have hfil : raw.toList.filter keepChar = raw.toList :=
      List.filter_eq_self.mpr (fun c hc => (ws_char_facts c (h c hc)).2.2.2.1)
    simp only [normalizeName, if_neg h0]
    rw [hstr, hbase0, hdec]
    dsimp only
    rw [hmap, hrep, hfil]
    unfold trimChars
    rw [List.dropWhile_eq_nil_iff.mpr (fun c hc => h c hc)]
    rfl

/-- C8, counterexample: the whitespace-only filename `" "` does not
normalize to an all-empty record — its `base` field is `" "`, not the
empty string (only `normalized`, `compact` and `tokens` are empty). -/
theorem c8_counterexample_whitespace_base :
    (∀ c ∈ (" " : String).toList, jsWs c = true) ∧
    (normalizeName " ").base = [' '] ∧
    (normalizeName " ").base ≠ [] := by decide

/-- C8 (amended): for every empty or whitespace-only input,
`normalized`, `compact` and `tokens` are empty (`base` is empty only for
the empty input; a whitespace-only input keeps its whitespace `base`),
no keyword matches anywhere, and classify returns Healthy with
confidence `0.55`. -/
theorem c8_degenerate_input_amended (raw : String)
    (h : ∀ c ∈ raw.toList, jsWs c = true) :
    (normalizeName raw).normalized = [] ∧
    (normalizeName raw).compact = [] ∧
    (normalizeName raw).tokens = [] ∧
    (raw = "" → (normalizeName raw).base = []) ∧
    (∀ d, ((debugAnalyze raw).candidates d).strongMatches = [] ∧
      ((debugAnalyze raw).candidates d).weakMatches = []) ∧
    (predictFromImageName raw).diagnosis = Category.healthy ∧
    (predictFromImageName raw).confidence = 0.55 := by
  have hnorm := normalized_empty_of_all_ws raw h
  have hcomp : (normalizeName raw).compact = [] := by
    rw [normalizeName_compact, hnorm]
    rfl
  have htok : (normalizeName raw).tokens = [] := by
    rw [normalizeName_tokens, hnorm]
    rfl
  have hcheck : ∀ kw, check (normalizeName raw) kw = false := check_all_empty _ htok hcomp
  have hstrongf : ∀ d, (keywords d).strong.filter (check (normalizeName raw)) = [] := by
    intro d
    rw [List.filter_eq_nil_iff]
    intro kw _
    simp [hcheck kw]
  have hweakf : ∀ d, (keywords d).weak.filter (check (normalizeName raw)) = [] := by
    intro d
    rw [List.filter_eq_nil_iff]
    intro kw _
    simp [hcheck kw]
  have helig : eligibleList (debugAnalyze raw).candidates = [] := by
    unfold eligibleList
    rw [List.filter_eq_nil_iff]
    intro d _
    have : ((debugAnalyze raw).candidates d).strongMatches = [] := hstrongf d
    simp [this]
  have hchosen : (debugAnalyze raw).chosen = Category.healthy := selectChosen_empty _ helig
  have hscore : ((debugAnalyze raw).candidates Category.healthy).score = 0 := by
    show (matchRecord (normalizeName raw) (keywords Category.healthy)).score = 0
    unfold matchRecord STRONG_WEIGHT WEAK_WEIGHT
    rw [hstrongf Category.healthy, hweakf Category.healthy]
    norm_num
  refine ⟨hnorm, hcomp, htok, ?_, ?_, hchosen, ?_⟩
  · intro h0
    rw [h0]
    rfl
  · intro d
    exact ⟨hstrongf d, hweakf d⟩
  · show scoreToConfidence
      ((debugAnalyze raw).candidates (debugAnalyze raw).chosen).score = 0.55
    rw [hchosen, hscore]
    exact stc_zero

theorem c8_degenerate_input_amended_witness :
    (normalizeName " ").normalized = [] ∧
    (normalizeName " ").compact = [] ∧
    (normalizeName " ").tokens = [] ∧
    ((" " : String) = "" → (normalizeName " ").base = []) ∧
    (∀ d, ((debugAnalyze " ").candidates d).strongMatches = [] ∧
      ((debugAnalyze " ").candidates d).weakMatches = []) ∧
    (predictFromImageName " ").diagnosis = Category.healthy ∧
    (predictFromImageName " ").confidence = 0.55 :=
  c8_degenerate_input_amended " " (by decide)
